import Mathlib

/-!
Shallow embedding of the WindowsWhisper core (desktop/src-tauri):
the transcript-consolidation text algorithms of `lib.rs`, the standalone
post-processing dedupe pass of `postprocessing.rs`, and the capture-thread
buffer/drain/resample logic of `audio.rs`.  Strings are modelled as `List Char`,
sample buffers as `List Int`, and the fallible Rust paths as `Except String`.
-/

/-- A Rust `&str` / `String`, modelled as its character sequence. -/
abbrev Str := List Char

/-- Characters with the Unicode White_Space property: the predicate behind
Rust's `char::is_whitespace`, `str::split_whitespace` and `str::trim`. -/
def rustIsWhitespace (c : Char) : Bool :=
  let n := c.toNat
  (decide (9 ≤ n) && decide (n ≤ 13)) || n == 32 || n == 133 || n == 160 ||
    n == 5760 || (decide (8192 ≤ n) && decide (n ≤ 8202)) || n == 8232 ||
    n == 8233 || n == 8239 || n == 8287 || n == 12288

/-- Rust `char::is_alphanumeric`, restricted to the ASCII fragment the model
covers (the full Unicode Alphabetic/Number tables are outside the embedding;
every claim here is about the word-level algorithms, not those tables). -/
def rustIsAlphanumeric (c : Char) : Bool :=
  c.isAlpha || c.isDigit

/-- Accumulator-based splitter behind `split_whitespace`: `acc` holds the
reversed characters of the word currently being scanned. -/
def splitWsAux : Str → Str → List Str
  | [], acc => if acc = [] then [] else [acc.reverse]
  | c :: rest, acc =>
    if rustIsWhitespace c then
      if acc = [] then splitWsAux rest []
      else acc.reverse :: splitWsAux rest []
    else splitWsAux rest (c :: acc)

/-- Rust `str::split_whitespace().collect::<Vec<_>>()`: the maximal
whitespace-free words of `s`, in order, empties discarded. -/
def split_whitespace (s : Str) : List Str :=
  splitWsAux s []

/-- Rust `Vec::<&str>::join(" ")`. -/
def joinWords : List Str → Str
  | [] => []
  | [w] => w
  | w :: ws => w ++ ' ' :: joinWords ws

/-- Rust `str::trim`: strip whitespace from both ends. -/
def trimStr (s : Str) : Str :=
  ((s.dropWhile rustIsWhitespace).reverse.dropWhile rustIsWhitespace).reverse

/-- A word as produced by `split_whitespace`: non-empty and whitespace-free. -/
def okWord (w : Str) : Prop :=
  w ≠ [] ∧ ∀ c ∈ w, rustIsWhitespace c = false

theorem splitWsAux_words_ok (s : Str) :
    ∀ acc : Str, (∀ c ∈ acc, rustIsWhitespace c = false) →
      ∀ w ∈ splitWsAux s acc, okWord w := by
  induction s with
  | nil =>
    intro acc hacc w hw
    simp only [splitWsAux] at hw
    by_cases h0 : acc = []
    · rw [if_pos h0] at hw
      simp at hw
    · rw [if_neg h0] at hw
      simp only [List.mem_singleton] at hw
      subst hw
      refine ⟨by simpa using h0, ?_⟩
      intro c hc
      exact hacc c (List.mem_reverse.mp hc)
  | cons c rest ih =>
    intro acc hacc w hw
    simp only [splitWsAux] at hw
    by_cases hws : rustIsWhitespace c = true
    · rw [if_pos hws] at hw
      by_cases h0 : acc = []
      · rw [if_pos h0] at hw
        exact ih [] (by simp) w hw
      · rw [if_neg h0] at hw
        rcases List.mem_cons.mp hw with hw | hw
        · subst hw
          refine ⟨by simpa using h0, ?_⟩
          intro d hd
          exact hacc d (List.mem_reverse.mp hd)
        · exact ih [] (by simp) w hw
    · rw [if_neg hws] at hw
      refine ih (c :: acc) ?_ w hw
      intro d hd
      rcases List.mem_cons.mp hd with hd | hd
      · subst hd
        simpa using hws
      · exact hacc d hd

/-- Every word emitted by `split_whitespace` is non-empty and
whitespace-free. -/
theorem split_whitespace_ok (s : Str) : ∀ w ∈ split_whitespace s, okWord w :=
  splitWsAux_words_ok s [] (by simp)

theorem splitWsAux_append :
    ∀ (w s acc : Str), (∀ c ∈ w, rustIsWhitespace c = false) →
      splitWsAux (w ++ s) acc = splitWsAux s (w.reverse ++ acc) := by
  intro w
  induction w with
  | nil => intro s acc _; simp
  | cons c w' ih =>
    intro s acc hw
    have hc : rustIsWhitespace c = false := hw c (by simp)
    have hw' : ∀ d ∈ w', rustIsWhitespace d = false := fun d hd => hw d (by simp [hd])
    simp only [List.cons_append, splitWsAux, List.append_eq]
    rw [if_neg (by simp [hc]), ih s (c :: acc) hw']
    congr 1
    simp

theorem splitWsAux_all_ws :
    ∀ (s acc : Str), (∀ c ∈ s, rustIsWhitespace c = true) →
      splitWsAux s acc = if acc = [] then [] else [acc.reverse] := by
  intro s
  induction s with
  | nil => intro acc _; rfl
  | cons c rest ih =>
    intro acc hs
    have hc : rustIsWhitespace c = true := hs c (by simp)
    have hrest : ∀ d ∈ rest, rustIsWhitespace d = true := fun d hd => hs d (by simp [hd])
    simp only [splitWsAux]
    rw [if_pos hc]
    have hnil : splitWsAux rest [] = [] := by
      rw [ih [] hrest, if_pos rfl]
    by_cases h0 : acc = []
    · rw [if_pos h0, if_pos h0, hnil]
    · rw [if_neg h0, if_neg h0, hnil]

/-- Unfolding of `joinWords` at a cons cell. -/
theorem joinWords_cons (w : Str) (ws : List Str) :
    joinWords (w :: ws) = w ++ (if ws = [] then [] else ' ' :: joinWords ws) := by
  cases ws with
  | nil => simp [joinWords]
  | cons w2 rest => simp [joinWords]

theorem joinWords_ne_nil (ws : List Str) (hne : ws ≠ [])
    (hok : ∀ w ∈ ws, okWord w) : joinWords ws ≠ [] := by
  cases ws with
  | nil => exact absurd rfl hne
  | cons w rest =>
    rcases w with _ | ⟨a, t⟩
    · exact absurd rfl (hok [] (by simp)).1
    · rw [joinWords_cons]
      simp

/-- `split_whitespace` is a left inverse of `joinWords` on lists of
non-empty whitespace-free words. -/
theorem split_whitespace_joinWords :
    ∀ ws : List Str, (∀ w ∈ ws, okWord w) →
      split_whitespace (joinWords ws) = ws := by
  intro ws
  induction ws with
  | nil => intro _; rfl
  | cons w rest ih =>
    intro hok
    have hw := hok w (by simp)
    have hrest : ∀ v ∈ rest, okWord v := fun v hv => hok v (by simp [hv])
    cases rest with
    | nil =>
      show splitWsAux (joinWords [w]) [] = [w]
      have : joinWords [w] = w ++ [] := by simp [joinWords]
      rw [this, splitWsAux_append w [] [] hw.2]
      simp only [splitWsAux, List.append_nil]
      rw [if_neg (by simp [hw.1])]
      simp
    | cons w2 rest2 =>
      show splitWsAux (joinWords (w :: w2 :: rest2)) [] = w :: w2 :: rest2
      have hj : joinWords (w :: w2 :: rest2) = w ++ ' ' :: joinWords (w2 :: rest2) := by
        simp [joinWords]
      rw [hj, splitWsAux_append w _ [] hw.2]
      simp only [splitWsAux]
      rw [if_pos (by decide)]
      rw [if_neg (by simp [hw.1])]
      simp only [List.append_nil, List.reverse_reverse]
      exact congrArg (w :: ·) (ih hrest)

theorem trimStr_eq_self (s : Str)
    (hh : ∀ d, s.head? = some d → rustIsWhitespace d = false)
    (hl : ∀ d, s.getLast? = some d → rustIsWhitespace d = false) :
    trimStr s = s := by
  cases s with
  | nil => rfl
  | cons c t =>
    have hc : rustIsWhitespace c = false := hh c rfl
    unfold trimStr
    rw [List.dropWhile_cons, if_neg (by simp [hc])]
    rcases hrev : (c :: t).reverse with _ | ⟨d, r⟩
    · exact absurd hrev (by simp)
    · have hd : (c :: t).getLast? = some d := by
        rw [← List.head?_reverse, hrev]
        rfl
      have hdw : rustIsWhitespace d = false := hl d hd
      rw [List.dropWhile_cons, if_neg (by simp [hdw]), ← hrev,
        List.reverse_reverse]

theorem joinWords_getLast?_ok :
    ∀ ws : List Str, (∀ w ∈ ws, okWord w) →
      ∀ d, (joinWords ws).getLast? = some d → rustIsWhitespace d = false := by
  intro ws
  induction ws with
  | nil => intro _ d hd; simp [joinWords] at hd
  | cons w rest ih =>
    intro hok d hd
    have hrest : ∀ v ∈ rest, okWord v := fun v hv => hok v (by simp [hv])
    cases rest with
    | nil =>
      have hjw : joinWords [w] = w := by simp [joinWords]
      rw [hjw] at hd
      exact (hok w (by simp)).2 d (List.mem_of_getLast?_eq_some hd)
    | cons w2 rest2 =>
      have hj : joinWords (w :: w2 :: rest2) = w ++ ' ' :: joinWords (w2 :: rest2) := by
        simp [joinWords]
      rw [hj] at hd
      rw [List.getLast?_append_of_ne_nil w (by simp)] at hd
      have hne : joinWords (w2 :: rest2) ≠ [] :=
        joinWords_ne_nil (w2 :: rest2) (by simp) hrest
      have : (' ' :: joinWords (w2 :: rest2)) = [' '] ++ joinWords (w2 :: rest2) := rfl
      rw [this, List.getLast?_append_of_ne_nil [' '] hne] at hd
      exact ih hrest d hd

theorem joinWords_head?_ok (ws : List Str) (hok : ∀ w ∈ ws, okWord w) :
    ∀ d, (joinWords ws).head? = some d → rustIsWhitespace d = false := by
  intro d hd
  cases ws with
  | nil => simp [joinWords] at hd
  | cons w rest =>
    rw [joinWords_cons] at hd
    rcases hw : w with _ | ⟨a, t⟩
    · exact absurd hw (hok w (by simp)).1
    · rw [hw] at hd
      simp only [List.cons_append, List.head?_cons, Option.some.injEq] at hd
      rw [← hd]
      exact (hok w (by simp)).2 a (by simp [hw])

/-- Joining well-formed words produces a string `str::trim` leaves alone. -/
theorem trimStr_joinWords (ws : List Str) (hok : ∀ w ∈ ws, okWord w) :
    trimStr (joinWords ws) = joinWords ws :=
  trimStr_eq_self _ (joinWords_head?_ok ws hok) (joinWords_getLast?_ok ws hok)

theorem splitWsAux_append_all_ws (w : Str) (hw : ∀ c ∈ w, rustIsWhitespace c = true) :
    ∀ (u acc : Str), splitWsAux (u ++ w) acc = splitWsAux u acc := by
  intro u
  induction u with
  | nil =>
    intro acc
    rw [List.nil_append, splitWsAux_all_ws w acc hw]
    rfl
  | cons c rest ih =>
    intro acc
    simp only [List.cons_append, splitWsAux, List.append_eq]
    by_cases hws : rustIsWhitespace c = true
    · rw [if_pos hws, if_pos hws]
      by_cases h0 : acc = []
      · rw [if_pos h0, if_pos h0, ih []]
      · rw [if_neg h0, if_neg h0, ih []]
    · rw [if_neg hws, if_neg hws, ih (c :: acc)]

/-- `split_whitespace` ignores trailing all-whitespace junk. -/
theorem split_whitespace_append_all_ws (u w : Str)
    (hw : ∀ c ∈ w, rustIsWhitespace c = true) :
    split_whitespace (u ++ w) = split_whitespace u :=
  splitWsAux_append_all_ws w hw u []

theorem split_whitespace_dropWhile_ws (s : Str) :
    split_whitespace (s.dropWhile rustIsWhitespace) = split_whitespace s := by
  induction s with
  | nil => rfl
  | cons c rest ih =>
    by_cases hws : rustIsWhitespace c = true
    · rw [List.dropWhile_cons, if_pos (by simp [hws])]
      rw [ih]
      simp [split_whitespace, splitWsAux, hws]
    · rw [List.dropWhile_cons, if_neg (by simp [hws])]

/-- `split_whitespace` is invariant under `str::trim`. -/
theorem split_whitespace_trimStr (s : Str) :
    split_whitespace (trimStr s) = split_whitespace s := by
  have hsplit : s.dropWhile rustIsWhitespace =
      trimStr s ++ ((s.dropWhile rustIsWhitespace).reverse.takeWhile rustIsWhitespace).reverse := by
    unfold trimStr
    rw [← List.reverse_append, List.takeWhile_append_dropWhile, List.reverse_reverse]
  have hws : ∀ c ∈ ((s.dropWhile rustIsWhitespace).reverse.takeWhile rustIsWhitespace).reverse,
      rustIsWhitespace c = true := by
    intro c hc
    exact List.mem_takeWhile_imp (List.mem_reverse.mp hc)
  calc split_whitespace (trimStr s)
      = split_whitespace (trimStr s ++ _) := (split_whitespace_append_all_ws _ _ hws).symm
    _ = split_whitespace (s.dropWhile rustIsWhitespace) := by rw [← hsplit]
    _ = split_whitespace s := split_whitespace_dropWhile_ws s

theorem splitWsAux_eq_nil :
    ∀ (s acc : Str), splitWsAux s acc = [] → acc = [] ∧ ∀ c ∈ s, rustIsWhitespace c = true := by
  intro s
  induction s with
  | nil =>
    intro acc h
    simp only [splitWsAux] at h
    by_cases h0 : acc = []
    · exact ⟨h0, by simp⟩
    · rw [if_neg h0] at h
      simp at h
  | cons c rest ih =>
    intro acc h
    simp only [splitWsAux] at h
    by_cases hws : rustIsWhitespace c = true
    · rw [if_pos hws] at h
      by_cases h0 : acc = []
      · rw [if_pos h0] at h
        have := ih [] h
        refine ⟨h0, ?_⟩
        intro d hd
        rcases List.mem_cons.mp hd with hd | hd
        · subst hd; exact hws
        · exact this.2 d hd
      · rw [if_neg h0] at h
        simp at h
    · rw [if_neg hws] at h
      have := ih (c :: acc) h
      exact absurd this.1 (by simp)

/-- A string splits into no words exactly when `str::trim` empties it. -/
theorem split_whitespace_eq_nil_iff_trim (s : Str) :
    split_whitespace s = [] ↔ trimStr s = [] := by
  constructor
  · intro h
    have hall := (splitWsAux_eq_nil s [] h).2
    have h1 : s.dropWhile rustIsWhitespace = [] :=
      List.dropWhile_eq_nil_iff.mpr (fun x hx => by simp [hall x hx])
    unfold trimStr
    rw [h1]
    rfl
  · intro h
    rw [← split_whitespace_trimStr, h]
    rfl

namespace Consolidate

/-- `lib.rs` `normalize_word`: strip non-alphanumeric characters from both
ends (`trim_matches`); if that yields the empty string, ASCII-lowercase the
original token, otherwise ASCII-lowercase the stripped core. -/
def normalize_word (w : Str) : Str :=
  let trimmed := ((w.dropWhile (fun c => !rustIsAlphanumeric c)).reverse.dropWhile
    (fun c => !rustIsAlphanumeric c)).reverse
  if trimmed = [] then w.map Char.toLower else trimmed.map Char.toLower

def CHUNK_TRIM_WORDS : Nat := 3
def CHUNK_MAX_OVERLAP_WORDS : Nat := 12
def CHUNK_MAX_REPEAT_PHRASE_WORDS : Nat := 4

/-- Inner loop of the overlap scan in `merge_with_overlap`: do the trailing
`k` words of `ew` equal the leading `k` words of `nw` under
`normalize_word`? -/
def overlapMatch (ew nw : List Str) (k : Nat) : Bool :=
  (List.range k).all fun i =>
    normalize_word (ew.getD (ew.length - k + i) []) == normalize_word (nw.getD i [])

/-- The `for k in (1..=max_overlap).rev()` scan with early `break`: the
largest matching `k ≤ m`, else 0. -/
def findOverlap (ew nw : List Str) : Nat → Nat
  | 0 => 0
  | k + 1 => if overlapMatch ew nw (k + 1) then k + 1 else findOverlap ew nw k

/-- `lib.rs` `merge_with_overlap`. -/
def merge_with_overlap (existing next : Str) : Str :=
  let existing_words := split_whitespace existing
  let next_words := split_whitespace next
  if existing_words = [] then next
  else if next_words = [] then existing
  else
    let max_overlap := (existing_words.length.min next_words.length).min CHUNK_MAX_OVERLAP_WORDS
    let overlap := findOverlap existing_words next_words max_overlap
    let merged := trimStr existing
    if overlap < next_words.length then
      let rest := joinWords (next_words.drop overlap)
      if rest = [] then merged
      else (if merged = [] then [] else merged ++ [' ']) ++ trimStr rest
    else merged

/-- The word loop shared by both `collapse_duplicate_words` copies, generic
in the normalizer: keep a word unless it normalizes like the previous kept
word. -/
def collapseDupAux (norm : Str → Str) : List Str → Option Str → List Str
  | [], _ => []
  | w :: rest, prev =>
    let n := norm w
    if prev = some n then collapseDupAux norm rest prev
    else w :: collapseDupAux norm rest (some n)

/-- `lib.rs` `collapse_duplicate_words`. -/
def collapse_duplicate_words (text : Str) : Str :=
  joinWords (collapseDupAux normalize_word (split_whitespace text) none)

/-- Inner comparison loop of both repeated-phrase collapses: does the block
of `n` words at offset `off` of `ws` match the first `n` words of `ws` under
`norm`? -/
def blockMatch (norm : Str → Str) (ws : List Str) (off n : Nat) : Bool :=
  (List.range n).all fun j => norm (ws.getD j []) == norm (ws.getD (off + j) [])

/-- The `for n in (2..=max_n).rev()` scan with early `break` in the `lib.rs`
collapse: the largest `n ≤ m` (with `n ≥ 2`) whose phrase is immediately
repeated once, if any. -/
def findRepeatLen (norm : Str → Str) (ws : List Str) : Nat → Option Nat
  | n + 2 =>
    if blockMatch norm ws (n + 2) (n + 2) then some (n + 2)
    else findRepeatLen norm ws (n + 1)
  | _ => none

theorem findRepeatLen_two_le (norm : Str → Str) (ws : List Str) :
    ∀ m n, findRepeatLen norm ws m = some n → 2 ≤ n := by
  intro m
  induction m with
  | zero => intro n h; exact absurd h (by simp [findRepeatLen])
  | succ m ih =>
    intro n h
    cases m with
    | zero => exact absurd h (by simp [findRepeatLen])
    | succ m2 =>
      simp only [findRepeatLen] at h
      by_cases hb : blockMatch norm ws (m2 + 2) (m2 + 2) = true
      · rw [if_pos hb] at h
        cases h
        omega
      · rw [if_neg hb] at h
        exact ih n h

/-- The scanning `while` loop of `lib.rs` `collapse_repeated_phrases`,
expressed on the suffix of the word vector that starts at the cursor `i`
(every array access in the loop body is at an index `≥ i`).  The Rust loop
terminates because the cursor advances by at least one word per iteration,
so the word count bounds the iteration count; `fuel`, initialized to that
count by the caller, makes the bound structural (it never runs out: each
iteration consumes one fuel and at least one word). -/
def collapseLoop (norm : Str → Str) (bound : Nat) : Nat → List Str → List Str
  | _, [] => []
  | 0, _ => []
  | fuel + 1, w :: rest =>
    match findRepeatLen norm (w :: rest) (((w :: rest).length / 2).min bound) with
    | some n => (w :: rest).take n ++ collapseLoop norm bound fuel ((w :: rest).drop (2 * n))
    | none => w :: collapseLoop norm bound fuel rest

/-- `lib.rs` `collapse_repeated_phrases` (live-session path,
`CHUNK_MAX_REPEAT_PHRASE_WORDS = 4`). -/
def collapse_repeated_phrases (text : Str) : Str :=
  let words := split_whitespace text
  if words.length < 4 then text
  else joinWords (collapseLoop normalize_word CHUNK_MAX_REPEAT_PHRASE_WORDS words.length words)

/-- `lib.rs` `trim_trailing_words`. -/
def trim_trailing_words (text : Str) (words : Nat) : Str :=
  let parts := split_whitespace text
  if words < parts.length then joinWords (parts.take (parts.length - words))
  else joinWords parts

/-- Rust `chunks.iter().rposition(|text| !text.trim().is_empty())`. -/
def rpositionNonBlank (chunks : List Str) : Option Nat :=
  match chunks.reverse.findIdx? (fun t => !(trimStr t).isEmpty) with
  | some j => some (chunks.length - 1 - j)
  | none => none

/-- The indexed `for (idx, chunk)` loop inside `consolidate_chunk_texts`. -/
def consolidateAux (lastIdx : Option Nat) : List Str → Nat → Str → Str
  | [], _, combined => combined
  | chunk :: rest, idx, combined =>
    let trimmed := trimStr chunk
    if trimmed = [] then consolidateAux lastIdx rest (idx + 1) combined
    else
      let part := if some idx = lastIdx then trimmed
                  else trim_trailing_words trimmed CHUNK_TRIM_WORDS
      if part = [] then consolidateAux lastIdx rest (idx + 1) combined
      else consolidateAux lastIdx rest (idx + 1) (merge_with_overlap combined part)

/-- `lib.rs` `consolidate_chunk_texts`. -/
def consolidate_chunk_texts (chunks : List Str) : Str :=
  let combined := consolidateAux (rpositionNonBlank chunks) chunks 0 []
  collapse_duplicate_words (collapse_repeated_phrases combined)

end Consolidate

namespace Post

/-- `postprocessing.rs` `normalize_word`: keep only alphanumeric characters,
then lowercase. -/
def normalize_word (w : Str) : Str :=
  (w.filter rustIsAlphanumeric).map Char.toLower

/-- `postprocessing.rs` `collapse_duplicate_words` (textually the same loop
as the `lib.rs` copy, with this file's normalizer). -/
def collapse_duplicate_words (text : Str) : Str :=
  joinWords (Consolidate.collapseDupAux normalize_word (split_whitespace text) none)

/-- The inner `while j + n <= words.len()` counting loop of the
`postprocessing.rs` collapse: how many consecutive blocks of `n = m + 2`
words, starting at relative offset `j`, match the first `n` words of `ws`.
The Rust `while` terminates because `j` grows by `n ≥ 2` while staying
bounded by the word count, so that count bounds the iteration count;
`fuel`, initialized to it by the caller, makes the bound structural — it
never runs out: each iteration consumes one fuel and advances `j`. -/
def countRepeats (norm : Str → Str) (ws : List Str) (m : Nat) : Nat → Nat → Nat
  | j, fuel + 1 =>
    if j + (m + 2) ≤ ws.length ∧ Consolidate.blockMatch norm ws j (m + 2) = true then
      1 + countRepeats norm ws m (j + (m + 2)) fuel
    else 0
  | _, 0 => 0

/-- The `for n in (2..=max_n).rev()` scan of the `postprocessing.rs`
collapse with early `break`: the largest `n ≤ m` whose phrase is repeated at
least once, paired with the total consecutive occurrence count
(`repeat_count`). -/
def findRepeatRun (norm : Str → Str) (ws : List Str) : Nat → Option (Nat × Nat)
  | m + 2 =>
    let c := 1 + countRepeats norm ws m (m + 2) ws.length
    if 1 < c then some (m + 2, c) else findRepeatRun norm ws (m + 1)
  | _ => none

/-- The scanning `while` loop of `postprocessing.rs`
`collapse_repeated_phrases`, on the suffix starting at the cursor: keep the
first occurrence of the repeated phrase and skip all `repeat_count`
consecutive occurrences.  `fuel` is the structural form of the
word-count bound on the iteration count, as in
`Consolidate.collapseLoop`. -/
def collapseLoop (norm : Str → Str) (bound : Nat) : Nat → List Str → List Str
  | _, [] => []
  | 0, _ => []
  | fuel + 1, w :: rest =>
    match findRepeatRun norm (w :: rest) (((w :: rest).length / 2).min bound) with
    | some nc =>
        (w :: rest).take nc.1 ++ collapseLoop norm bound fuel ((w :: rest).drop (nc.1 * nc.2))
    | none => w :: collapseLoop norm bound fuel rest

/-- The `max_phrase_len` local of `postprocessing.rs`. -/
def max_phrase_len : Nat := 8

/-- `postprocessing.rs` `collapse_repeated_phrases` (bound 8, all
consecutive repeats skipped). -/
def collapse_repeated_phrases (text : Str) : Str :=
  let words := split_whitespace text
  if words.length < 4 then text
  else joinWords (collapseLoop normalize_word max_phrase_len words.length words)

/-- `postprocessing.rs` `dedupe_repeated_phrases`. -/
def dedupe_repeated_phrases (text : Str) : Str :=
  collapse_duplicate_words (collapse_repeated_phrases text)

end Post

namespace Capture

/-- The capture-thread state the `DrainChunk` handler manipulates: the
shared sample buffer and the `last_chunk_index` cursor of `audio.rs`. -/
structure RecState where
  buffer : List Int
  lastChunkIndex : Nat
  deriving DecidableEq, Repr

/-- The audio callback's effect on the shared state: append newly delivered
mono samples (the callback only ever appends; the cursor is untouched). -/
def appendSamples (s : RecState) (xs : List Int) : RecState :=
  { buffer := s.buffer ++ xs, lastChunkIndex := s.lastChunkIndex }

/-- The `AudioCommand::DrainChunk` handler of `audio.rs`, up to the
resampling/WAV-encoding of the copied slice: the reply sent on the channel,
paired with the state left behind (the `No new audio` reply leaves the
state untouched; `chunk_end` is always `buffer.len()`, so the copied slice
`buffer[chunk_start..chunk_end]` is `drop chunk_start`; Nat subtraction is
Rust `saturating_sub`). -/
def drainChunk (overlap_samples : Nat) (s : RecState) :
    Except String (List Int) × RecState :=
  let chunk_end := s.buffer.length
  if chunk_end ≤ s.lastChunkIndex then
    (Except.error "No new audio", s)
  else
    let chunk_start := s.lastChunkIndex - overlap_samples
    let chunk_samples := s.buffer.drop chunk_start
    if 0 < overlap_samples then
      let retained := s.buffer.drop (chunk_end - overlap_samples)
      (Except.ok chunk_samples, { buffer := retained, lastChunkIndex := retained.length })
    else
      (Except.ok chunk_samples, { buffer := [], lastChunkIndex := 0 })

/-- The environment facts the spawned capture thread of `start_recording`
checks on its way to the command loop. -/
structure CaptureEnv where
  inputDeviceExists : Bool
  configOk : Bool
  formatSupported : Bool
  streamBuildOk : Bool
  streamPlayOk : Bool
  deriving DecidableEq, Repr

/-- Whether the spawned capture thread reaches its command loop: each
failure on the way (`No input device`, config error, unsupported format,
stream build/play failure) makes the thread log with `eprintln!` and
return. -/
def captureThreadRuns (env : CaptureEnv) : Bool :=
  env.inputDeviceExists && env.configOk && env.formatSupported &&
    env.streamBuildOk && env.streamPlayOk

/-- The value `AudioRecorder::start_recording` returns to its caller: `Ok`
immediately when already recording, and `Ok` after spawning the capture
thread — the function body has no error return of its own, whatever the
device environment turns out to be. -/
def start_recording (isRecording : Bool) (_env : CaptureEnv) : Except String Unit :=
  if isRecording then Except.ok () else Except.ok ()

/-- `audio.rs` `resample`, with the `f64` arithmetic idealized as exact
rational arithmetic (`as usize` on the nonnegative results is `Int.toNat`
of the floor); `List.get?` returns `none` exactly when `src_idx` falls
outside the slice, mirroring the bounds-guarded `push`.  The idealization
is behavior-preserving only where every `f64` step is exact — notably at
equal positive rates, where `from_rate / to_rate` is exactly `1.0` and all
conversions stay below `2^53` — and theorems about this definition are
stated on such domains only; at general rates the rounded `f64` results
can differ from the exact rationals. -/
def resample (samples : List Int) (from_rate to_rate : Nat) : List Int :=
  let rq : ℚ := (from_rate : ℚ) / (to_rate : ℚ)
  let new_len : Nat := (⌊(samples.length : ℚ) / rq⌋).toNat
  (List.range new_len).filterMap fun i : ℕ => samples.get? (⌊(i : ℚ) * rq⌋).toNat

end Capture

namespace Capture

theorem drainChunk_ok_spec (overlap : Nat) (s : RecState) (chunk : List Int)
    (s2 : RecState) (h : drainChunk overlap s = (Except.ok chunk, s2)) :
    s.lastChunkIndex < s.buffer.length ∧
    chunk = s.buffer.drop (s.lastChunkIndex - overlap) ∧
    s2.buffer = s.buffer.drop (s.buffer.length - overlap) ∧
    s2.lastChunkIndex = s2.buffer.length := by
  unfold drainChunk at h
  by_cases hle : s.buffer.length ≤ s.lastChunkIndex
  · rw [if_pos hle] at h
    exact absurd (congrArg Prod.fst h) (by simp)
  · rw [if_neg hle] at h
    by_cases hov : 0 < overlap
    · rw [if_pos hov, Prod.mk.injEq] at h
      obtain ⟨h1, h2⟩ := h
      rw [Except.ok.injEq] at h1
      subst h1
      subst h2
      exact ⟨by omega, rfl, rfl, rfl⟩
    · rw [if_neg hov, Prod.mk.injEq] at h
      obtain ⟨h1, h2⟩ := h
      rw [Except.ok.injEq] at h1
      subst h1
      subst h2
      refine ⟨by omega, rfl, ?_, rfl⟩
      show ([] : List Int) = s.buffer.drop (s.buffer.length - overlap)
      have hz : overlap = 0 := by omega
      rw [hz, Nat.sub_zero, List.drop_length]

/-- C5: a successful drain copies the slice
`buffer[last_chunk_index saturating-minus overlap ..]`, retains exactly
`min overlap (buffer length at drain time)` trailing samples (the whole
buffer is cleared when the overlap is 0), and sets the cursor to the new
buffer length; and both drains (successful or erroring) and callback
appends preserve `lastChunkIndex ≤ buffer.length`. -/
theorem claim_C5_drain_retention (overlap : Nat) :
    (∀ (s : RecState) (chunk : List Int) (s2 : RecState),
      drainChunk overlap s = (Except.ok chunk, s2) →
        chunk = s.buffer.drop (s.lastChunkIndex - overlap) ∧
        s2.buffer = s.buffer.drop (s.buffer.length - overlap) ∧
        s2.buffer.length = min overlap s.buffer.length ∧
        (overlap = 0 → s2.buffer = []) ∧
        s2.lastChunkIndex = s2.buffer.length) ∧
    (∀ s : RecState, s.lastChunkIndex ≤ s.buffer.length →
      ((drainChunk overlap s).2).lastChunkIndex ≤ ((drainChunk overlap s).2).buffer.length) ∧
    (∀ (s : RecState) (xs : List Int), s.lastChunkIndex ≤ s.buffer.length →
      (appendSamples s xs).lastChunkIndex ≤ (appendSamples s xs).buffer.length) := by
  refine ⟨?_, ?_, ?_⟩
  · intro s chunk s2 h
    obtain ⟨hlt, hchunk, hbuf, hcur⟩ := drainChunk_ok_spec overlap s chunk s2 h
    refine ⟨hchunk, hbuf, ?_, ?_, hcur⟩
    · rw [hbuf, List.length_drop]
      omega
    · intro hz
      rw [hbuf, hz, Nat.sub_zero, List.drop_length]
  · intro s hs
    rcases hd : drainChunk overlap s with ⟨res, s2⟩
    cases res with
    | ok chunk =>
      have := (drainChunk_ok_spec overlap s chunk s2 hd).2.2.2
      simp only [hd]
      omega
    | error e =>
      unfold drainChunk at hd
      by_cases hle : s.buffer.length ≤ s.lastChunkIndex
      · rw [if_pos hle] at hd
        have : s2 = s := (congrArg Prod.snd hd).symm
        simp only [hd]
        rw [this]
        exact hs
      · rw [if_neg hle] at hd
        by_cases hov : 0 < overlap
        · rw [if_pos hov] at hd
          exact absurd (congrArg Prod.fst hd) (by simp)
        · rw [if_neg hov] at hd
          exact absurd (congrArg Prod.fst hd) (by simp)
  · intro s xs hs
    simp only [appendSamples, List.length_append]
    omega

/-- Witness for C5 at `overlap = 2`, buffer `[1, 2, 3, 4]`, cursor 1: the
drain succeeds with chunk `[1, 2, 3, 4]` and the retained buffer `[3, 4]`
has length `min 2 4`. -/
theorem claim_C5_drain_retention_witness :
    (⟨[3, 4], 2⟩ : RecState).buffer.length = min 2 ([1, 2, 3, 4] : List Int).length :=
  ((claim_C5_drain_retention 2).1 ⟨[1, 2, 3, 4], 1⟩ [1, 2, 3, 4] ⟨[3, 4], 2⟩
    rfl).2.2.1

/-- C6: a drain immediately following a successful drain, with no samples
appended in between, replies with the `No new audio` error and leaves the
buffer and cursor untouched. -/
theorem claim_C6_no_new_audio (overlap : Nat) (s : RecState) (chunk : List Int)
    (s2 : RecState) (h : drainChunk overlap s = (Except.ok chunk, s2)) :
    drainChunk overlap s2 = (Except.error "No new audio", s2) := by
  have hcur := (drainChunk_ok_spec overlap s chunk s2 h).2.2.2
  unfold drainChunk
  rw [if_pos (le_of_eq hcur.symm)]

/-- Witness for C6: after draining `[1, 2, 3, 4]` at cursor 1 with overlap
2, draining the retained state `⟨[3, 4], 2⟩` errors and keeps it intact. -/
theorem claim_C6_no_new_audio_witness :
    drainChunk 2 ⟨[3, 4], 2⟩ = (Except.error "No new audio", ⟨[3, 4], 2⟩) :=
  claim_C6_no_new_audio 2 ⟨[1, 2, 3, 4], 1⟩ [1, 2, 3, 4] ⟨[3, 4], 2⟩ rfl

/-- C4 (code bug): `start_recording` returns `Ok` to its caller for every
device environment — in particular when no input device exists (and the
spawned capture thread, which alone sees the failure, merely logs it and
never reaches its command loop).  The claim that device, configuration,
stream-build and play failures are returned to the caller as errors does
not hold of the code. -/
theorem claim_C4_start_swallows_failures :
    (∀ env : CaptureEnv, start_recording false env = Except.ok ()) ∧
    captureThreadRuns ⟨false, true, true, true, true⟩ = false ∧
    start_recording false ⟨false, true, true, true, true⟩ = Except.ok () := by
  refine ⟨fun env => rfl, rfl, rfl⟩

end Capture

theorem range_filterMap_get? {α : Type} (l : List α) :
    (List.range l.length).filterMap (fun i => l.get? i) = l := by
  induction l with
  | nil => rfl
  | cons a t ih =>
    rw [List.length_cons, List.range_succ_eq_map, List.filterMap_cons]
    have h0 : (a :: t).get? 0 = some a := rfl
    rw [h0, List.filterMap_map]
    have hcomp : ((fun i => (a :: t).get? i) ∘ Nat.succ) = fun i => t.get? i := by
      funext i
      simp [Function.comp]
    rw [hcomp, ih]

/-- `Capture.resample` with its `let`-bindings unfolded. -/
theorem resample_unfold (samples : List Int) (f t : Nat) :
    Capture.resample samples f t =
      (List.range ((⌊(samples.length : ℚ) / ((f : ℚ) / (t : ℚ))⌋).toNat)).filterMap
        (fun i : ℕ => samples.get? ((⌊(i : ℚ) * ((f : ℚ) / (t : ℚ))⌋).toNat)) := rfl

/-- C9: `resample` at an unchanged positive rate returns the buffer
unchanged. -/
theorem claim_C9_resample_identity (samples : List Int) (r : Nat) (hr : 0 < r) :
    Capture.resample samples r r = samples := by
  have hrq : (r : ℚ) / (r : ℚ) = 1 :=
    div_self (by exact_mod_cast hr.ne')
  rw [resample_unfold]
  simp only [hrq, mul_one, div_one, Int.floor_natCast, Int.toNat_natCast]
  exact range_filterMap_get? samples

/-- Witness for C9 at buffer `[7, 8, 9]`, rate 16000. -/
theorem claim_C9_resample_identity_witness :
    Capture.resample [7, 8, 9] 16000 16000 = [7, 8, 9] :=
  claim_C9_resample_identity [7, 8, 9] 16000 (by decide)

theorem consolidateAux_blank :
    ∀ (chunks : List Str) (lastIdx : Option Nat) (idx : Nat) (combined : Str),
      (∀ c ∈ chunks, trimStr c = []) →
      Consolidate.consolidateAux lastIdx chunks idx combined = combined := by
  intro chunks
  induction chunks with
  | nil => intro lastIdx idx combined _; rfl
  | cons chunk rest ih =>
    intro lastIdx idx combined h
    have hc : trimStr chunk = [] := h chunk (by simp)
    simp only [Consolidate.consolidateAux]
    rw [if_pos hc]
    exact ih lastIdx (idx + 1) combined (fun c hcm => h c (by simp [hcm]))

/-- C7: consolidation is total and never fails — the empty chunk list, and
every chunk list whose entries are all empty or whitespace-only,
consolidate to the empty string. -/
theorem claim_C7_consolidate_blank_empty (chunks : List Str)
    (h : ∀ c ∈ chunks, trimStr c = []) :
    Consolidate.consolidate_chunk_texts chunks = [] := by
  show Consolidate.collapse_duplicate_words (Consolidate.collapse_repeated_phrases
    (Consolidate.consolidateAux (Consolidate.rpositionNonBlank chunks) chunks 0 [])) = []
  rw [consolidateAux_blank chunks (Consolidate.rpositionNonBlank chunks) 0 [] h]
  rfl

/-- Witness for C7 on the all-blank list `["", "  "]` (and, through the same
theorem at `[]`, the empty session transcript). -/
theorem claim_C7_consolidate_blank_empty_witness :
    Consolidate.consolidate_chunk_texts [[], [' ', ' ']] = [] ∧
    Consolidate.consolidate_chunk_texts [] = [] :=
  ⟨claim_C7_consolidate_blank_empty [[], [' ', ' ']] (by decide),
   claim_C7_consolidate_blank_empty [] (by decide)⟩

theorem collapseDupAux_mem (norm : Str → Str) :
    ∀ (ws : List Str) (prev : Option Str),
      ∀ w ∈ Consolidate.collapseDupAux norm ws prev, w ∈ ws := by
  intro ws
  induction ws with
  | nil => intro prev w hw; simp [Consolidate.collapseDupAux] at hw
  | cons a rest ih =>
    intro prev w hw
    simp only [Consolidate.collapseDupAux] at hw
    by_cases hp : prev = some (norm a)
    · rw [if_pos hp] at hw
      exact List.mem_cons_of_mem a (ih prev w hw)
    · rw [if_neg hp] at hw
      rcases List.mem_cons.mp hw with hw | hw
      · simp [hw]
      · exact List.mem_cons_of_mem a (ih (some (norm a)) w hw)

theorem collapseDupAux_chain (norm : Str → Str) :
    ∀ (ws : List Str) (prev : Option Str),
      List.Chain' (fun a b => norm a ≠ norm b) (Consolidate.collapseDupAux norm ws prev) ∧
      (∀ h, (Consolidate.collapseDupAux norm ws prev).head? = some h →
        prev ≠ some (norm h)) := by
  intro ws
  induction ws with
  | nil => intro prev; exact ⟨List.chain'_nil, by simp [Consolidate.collapseDupAux]⟩
  | cons a rest ih =>
    intro prev
    simp only [Consolidate.collapseDupAux]
    by_cases hp : prev = some (norm a)
    · rw [if_pos hp]
      exact ih prev
    · rw [if_neg hp]
      obtain ⟨ihc, ihh⟩ := ih (some (norm a))
      refine ⟨?_, ?_⟩
      · rw [List.chain'_cons']
        refine ⟨?_, ihc⟩
        intro y hy
        have hne := ihh y (Option.mem_def.mp hy)
        intro he
        exact hne (by rw [he])
      · intro h hh
        simp only [List.head?_cons, Option.some.injEq] at hh
        rw [← hh]
        exact hp

theorem collapseDupAux_fixed (norm : Str → Str) :
    ∀ (ws : List Str) (prev : Option Str),
      List.Chain' (fun a b => norm a ≠ norm b) ws →
      (∀ h, ws.head? = some h → prev ≠ some (norm h)) →
      Consolidate.collapseDupAux norm ws prev = ws := by
  intro ws
  induction ws with
  | nil => intro prev _ _; rfl
  | cons a rest ih =>
    intro prev hchain hhead
    simp only [Consolidate.collapseDupAux]
    rw [if_neg (fun hp => hhead a rfl hp)]
    rw [List.chain'_cons'] at hchain
    refine congrArg (a :: ·) (ih (some (norm a)) hchain.2 ?_)
    intro h hh hp
    have hmem : h ∈ rest.head?.toList := by simp [hh]
    have := hchain.1 h (by simpa [hh] using rfl)
    rw [Option.some.injEq] at hp
    exact this hp

theorem collapseDup_roundtrip (norm : Str → Str) (s : Str) :
    joinWords (Consolidate.collapseDupAux norm
      (split_whitespace (joinWords (Consolidate.collapseDupAux norm (split_whitespace s) none)))
      none) =
    joinWords (Consolidate.collapseDupAux norm (split_whitespace s) none) := by
  have hok : ∀ w ∈ Consolidate.collapseDupAux norm (split_whitespace s) none, okWord w :=
    fun w hw => split_whitespace_ok s w (collapseDupAux_mem norm _ none w hw)
  rw [split_whitespace_joinWords _ hok,
    collapseDupAux_fixed norm _ none (collapseDupAux_chain norm _ none).1 (by simp)]

theorem collapseDup_split_of_join (norm : Str → Str) (s : Str) :
    split_whitespace (joinWords (Consolidate.collapseDupAux norm (split_whitespace s) none)) =
      Consolidate.collapseDupAux norm (split_whitespace s) none :=
  split_whitespace_joinWords _
    (fun w hw => split_whitespace_ok s w (collapseDupAux_mem norm _ none w hw))

/-- Modelled from the claim's words: keep the first word of each maximal
run of adjacent words that normalize alike, and drop the remainder of the
run. -/
def keepFirstOfRuns (norm : Str → Str) : List Str → List Str
  | [] => []
  | w :: rest =>
    w :: keepFirstOfRuns norm (rest.dropWhile fun v => norm v == norm w)
termination_by ws => ws.length
decreasing_by
  simp only [List.length_cons]
  have hle : (List.dropWhile (fun v => norm v == norm w) rest).length ≤ rest.length :=
    (List.dropWhile_sublist (fun v => norm v == norm w)).length_le
  omega

theorem collapseDupAux_some_eq_dropRun (norm : Str → Str) :
    ∀ (ws : List Str) (n : Str),
      Consolidate.collapseDupAux norm ws (some n) =
        keepFirstOfRuns norm (ws.dropWhile fun v => norm v == n) := by
  intro ws
  induction ws with
  | nil =>
    intro n
    simp [Consolidate.collapseDupAux, keepFirstOfRuns]
  | cons w rest ih =>
    intro n
    simp only [Consolidate.collapseDupAux]
    rw [List.dropWhile_cons]
    by_cases he : norm w = n
    · rw [if_pos (by rw [he]), if_pos (by simp [he])]
      exact ih n
    · have hc1 : ¬ (some n = some (norm w)) := by
        intro hcon
        exact he (Option.some.inj hcon).symm
      have hc2 : ¬ ((norm w == n) = true) := by simp [he]
      rw [if_neg hc1, if_neg hc2, ih (norm w)]
      simp only [keepFirstOfRuns]

/-- The shared duplicate-collapse loop keeps exactly the first word of each
maximal run of alike-normalizing adjacent words. -/
theorem collapseDupAux_eq_keepFirstOfRuns (norm : Str → Str) (ws : List Str) :
    Consolidate.collapseDupAux norm ws none = keepFirstOfRuns norm ws := by
  cases ws with
  | nil => simp [Consolidate.collapseDupAux, keepFirstOfRuns]
  | cons w rest =>
    simp only [Consolidate.collapseDupAux]
    rw [if_neg (by simp), collapseDupAux_some_eq_dropRun norm rest (norm w)]
    simp only [keepFirstOfRuns]

/-- C10: both copies of `collapse_duplicate_words` (`lib.rs` and
`postprocessing.rs`, each with its own word normalizer) are idempotent;
equivalently their output never contains two adjacent whitespace-delimited
words with equal normalizations, and the word kept from each maximal run
of alike-normalizing adjacent words is the first one of the run
(`keepFirstOfRuns`). -/
theorem claim_C10_collapse_duplicate_words_idempotent :
    (∀ s : Str, Consolidate.collapse_duplicate_words (Consolidate.collapse_duplicate_words s) =
      Consolidate.collapse_duplicate_words s) ∧
    (∀ s : Str, Post.collapse_duplicate_words (Post.collapse_duplicate_words s) =
      Post.collapse_duplicate_words s) ∧
    (∀ s : Str, List.Chain'
      (fun a b => Consolidate.normalize_word a ≠ Consolidate.normalize_word b)
      (split_whitespace (Consolidate.collapse_duplicate_words s))) ∧
    (∀ s : Str, List.Chain' (fun a b => Post.normalize_word a ≠ Post.normalize_word b)
      (split_whitespace (Post.collapse_duplicate_words s))) ∧
    (∀ s : Str, Consolidate.collapse_duplicate_words s =
      joinWords (keepFirstOfRuns Consolidate.normalize_word (split_whitespace s))) ∧
    (∀ s : Str, Post.collapse_duplicate_words s =
      joinWords (keepFirstOfRuns Post.normalize_word (split_whitespace s))) := by
  refine ⟨fun s => collapseDup_roundtrip Consolidate.normalize_word s,
    fun s => collapseDup_roundtrip Post.normalize_word s,
    fun s => ?_, fun s => ?_, fun s => ?_, fun s => ?_⟩
  · show List.Chain' _ (split_whitespace (joinWords
      (Consolidate.collapseDupAux Consolidate.normalize_word (split_whitespace s) none)))
    rw [collapseDup_split_of_join Consolidate.normalize_word s]
    exact (collapseDupAux_chain Consolidate.normalize_word _ none).1
  · show List.Chain' _ (split_whitespace (joinWords
      (Consolidate.collapseDupAux Post.normalize_word (split_whitespace s) none)))
    rw [collapseDup_split_of_join Post.normalize_word s]
    exact (collapseDupAux_chain Post.normalize_word _ none).1
  · show joinWords (Consolidate.collapseDupAux Consolidate.normalize_word
      (split_whitespace s) none) = _
    rw [collapseDupAux_eq_keepFirstOfRuns]
  · show joinWords (Consolidate.collapseDupAux Post.normalize_word
      (split_whitespace s) none) = _
    rw [collapseDupAux_eq_keepFirstOfRuns]

/-- C1 is false as stated on the live-session path: the run of three
consecutive occurrences of the two-word phrase `a b` in `a b a b a b` is
reduced to two occurrences, not to a single one — the loop skips only the
one repeat it compared, then scans on from the third occurrence. -/
theorem claim_C1_counterexample_run_of_three :
    Consolidate.collapse_repeated_phrases ("a b a b a b".toList) = ("a b a b".toList) ∧
    ("a b a b".toList : Str) ≠ ("a b".toList : Str) := by
  constructor
  · decide
  · decide

theorem blockMatch_head_pair (p q t : List Str) (n : Nat)
    (hp : p.length = n) (hq : q.length = n)
    (hnorm : p.map Consolidate.normalize_word = q.map Consolidate.normalize_word) :
    Consolidate.blockMatch Consolidate.normalize_word (p ++ (q ++ t)) n n = true := by
  unfold Consolidate.blockMatch
  rw [List.all_eq_true]
  intro j hj
  rw [List.mem_range] at hj
  rw [beq_iff_eq]
  have hjp : j < p.length := by omega
  have hjq : j < q.length := by omega
  have h1 : (p ++ (q ++ t)).getD j [] = p.getD j [] := by
    rw [List.getD_eq_getElem?_getD, List.getD_eq_getElem?_getD, List.getElem?_append,
      if_pos hjp]
  have h2 : (p ++ (q ++ t)).getD (n + j) [] = q.getD j [] := by
    rw [List.getD_eq_getElem?_getD, List.getD_eq_getElem?_getD,
      List.getElem?_append_right (by omega), List.getElem?_append,
      if_pos (by omega : n + j - p.length < q.length)]
    congr 2
    omega
  rw [h1, h2]
  have h3 := congrArg (fun l : List Str => l[j]?) hnorm
  simp only [List.getElem?_map] at h3
  rw [List.getElem?_eq_getElem hjp, List.getElem?_eq_getElem hjq] at h3
  simp only [Option.map_some', Option.some.injEq] at h3
  rw [List.getD_eq_getElem?_getD, List.getD_eq_getElem?_getD,
    List.getElem?_eq_getElem hjp, List.getElem?_eq_getElem hjq]
  simpa using h3

theorem collapseLoop_head_repeat (p q t : List Str) (fuel : Nat)
    (hp : p.length = 4) (hq : q.length = 4)
    (hnorm : p.map Consolidate.normalize_word = q.map Consolidate.normalize_word) :
    Consolidate.collapseLoop Consolidate.normalize_word 4 (fuel + 1) (p ++ q ++ t) =
      p ++ Consolidate.collapseLoop Consolidate.normalize_word 4 fuel t := by
  obtain ⟨a, p2, rfl⟩ : ∃ a p2, p = a :: p2 := by
    cases p with
    | nil => simp at hp
    | cons a p2 => exact ⟨a, p2, rfl⟩
  have hcons : (a :: p2) ++ q ++ t = a :: (p2 ++ (q ++ t)) := by
    simp
  rw [hcons]
  have hlen : (a :: (p2 ++ (q ++ t))).length = 8 + t.length := by
    simp only [List.length_cons, List.length_append]
    simp only [List.length_cons] at hp
    omega
  have hmax : (((a :: (p2 ++ (q ++ t))).length / 2)).min 4 = 4 := by
    rw [hlen]
    exact Nat.min_eq_right (by omega)
  have hblock : Consolidate.blockMatch Consolidate.normalize_word
      (a :: (p2 ++ (q ++ t))) 4 4 = true := by
    have := blockMatch_head_pair (a :: p2) q t 4 hp hq hnorm
    simpa using this
  have hfind : Consolidate.findRepeatLen Consolidate.normalize_word
      (a :: (p2 ++ (q ++ t))) 4 = some 4 := by
    show Consolidate.findRepeatLen Consolidate.normalize_word
      (a :: (p2 ++ (q ++ t))) (2 + 2) = some (2 + 2)
    simp only [Consolidate.findRepeatLen]
    rw [if_pos (by simpa using hblock)]
  simp only [Consolidate.collapseLoop, hmax, hfind]
  have htake : List.take 4 (a :: (p2 ++ (q ++ t))) = a :: p2 := by
    have : a :: (p2 ++ (q ++ t)) = (a :: p2) ++ (q ++ t) := by simp
    rw [this, List.take_left' hp]
  have hdrop : List.drop (2 * 4) (a :: (p2 ++ (q ++ t))) = t := by
    have : a :: (p2 ++ (q ++ t)) = ((a :: p2) ++ q) ++ t := by simp
    rw [this, List.drop_left' (by simp only [List.length_append, hp, hq])]
  rw [htake, hdrop]

/-- C1 (amended): the repeated-phrase collapse scans left to right, trying
candidate lengths from the bound (4 live / 8 post-processing) down to 2;
when the phrase at the cursor is immediately followed by a repeat it keeps
one copy, but the live-session path skips only that single compared repeat
(so a phrase of the full bound length followed by one normalized repeat
collapses to one copy with scanning resuming after the pair, and a run of
three `a b`s leaves two), while the post-processing path counts and skips
all consecutive repeats of the chosen length (collapsing `a b a b a b` to
`a b`, though longest-first matching still turns four `x y`s into two);
`collapseRepeatedPhrases("i need you i need you now") = "i need you now"`
holds on both paths. -/
theorem claim_C1_amended_single_repeat_skip :
    (∀ (p q t : List Str) (fuel : Nat),
      p.length = 4 → q.length = 4 →
      p.map Consolidate.normalize_word = q.map Consolidate.normalize_word →
      Consolidate.collapseLoop Consolidate.normalize_word 4 (fuel + 1) (p ++ q ++ t) =
        p ++ Consolidate.collapseLoop Consolidate.normalize_word 4 fuel t) ∧
    Consolidate.collapse_repeated_phrases ("i need you i need you now".toList) =
      ("i need you now".toList) ∧
    Post.collapse_repeated_phrases ("i need you i need you now".toList) =
      ("i need you now".toList) ∧
    Post.collapse_repeated_phrases ("a b a b a b".toList) = ("a b".toList) ∧
    Post.collapse_repeated_phrases ("x y x y x y x y".toList) = ("x y x y".toList) := by
  refine ⟨fun p q t fuel hp hq hnorm => collapseLoop_head_repeat p q t fuel hp hq hnorm,
    by decide, by decide, by decide, by decide⟩

/-- Witness for the amended C1: the four-word phrase `a b c d` followed by
its exact repeat and the tail `e` collapses to one copy before the tail. -/
theorem claim_C1_amended_single_repeat_skip_witness :
    Consolidate.collapseLoop Consolidate.normalize_word 4 (4 + 1)
      ([['a'], ['b'], ['c'], ['d']] ++ [['a'], ['b'], ['c'], ['d']] ++ [['e']]) =
      [['a'], ['b'], ['c'], ['d']] ++
        Consolidate.collapseLoop Consolidate.normalize_word 4 4 [['e']] :=
  claim_C1_amended_single_repeat_skip.1 [['a'], ['b'], ['c'], ['d']]
    [['a'], ['b'], ['c'], ['d']] [['e']] 4 (by decide) (by decide) (by decide)

theorem findOverlap_le (ew nw : List Str) : ∀ m, Consolidate.findOverlap ew nw m ≤ m := by
  intro m
  induction m with
  | zero => exact Nat.le_refl 0
  | succ m ih =>
    simp only [Consolidate.findOverlap]
    by_cases hm : Consolidate.overlapMatch ew nw (m + 1) = true
    · rw [if_pos hm]
    · rw [if_neg hm]
      omega

theorem findOverlap_match (ew nw : List Str) :
    ∀ m, 1 ≤ Consolidate.findOverlap ew nw m →
      Consolidate.overlapMatch ew nw (Consolidate.findOverlap ew nw m) = true := by
  intro m
  induction m with
  | zero => intro h; exact absurd h (by simp [Consolidate.findOverlap])
  | succ m ih =>
    intro h
    simp only [Consolidate.findOverlap] at h ⊢
    by_cases hm : Consolidate.overlapMatch ew nw (m + 1) = true
    · rw [if_pos hm]
      exact hm
    · rw [if_neg hm] at h ⊢
      exact ih h

theorem findOverlap_greatest (ew nw : List Str) :
    ∀ m k, 1 ≤ k → k ≤ m → Consolidate.overlapMatch ew nw k = true →
      k ≤ Consolidate.findOverlap ew nw m := by
  intro m
  induction m with
  | zero => intro k h1 h2 _; omega
  | succ m ih =>
    intro k h1 h2 hmk
    simp only [Consolidate.findOverlap]
    by_cases hm : Consolidate.overlapMatch ew nw (m + 1) = true
    · rw [if_pos hm]
      exact h2
    · rw [if_neg hm]
      rcases Nat.lt_or_ge k (m + 1) with hk | hk
      · exact ih k h1 (by omega) hmk
      · have : k = m + 1 := by omega
        subst this
        exact absurd hmk hm

/-- The indexed comparison loop of the overlap scan agrees with the
word-list formulation of the spec: the trailing `k` words of `ew` equal the
leading `k` words of `nw` under normalization. -/
theorem overlapMatch_iff (ew nw : List Str) (k : Nat)
    (hke : k ≤ ew.length) (hkn : k ≤ nw.length) :
    Consolidate.overlapMatch ew nw k = true ↔
      (ew.drop (ew.length - k)).map Consolidate.normalize_word =
        (nw.take k).map Consolidate.normalize_word := by
  unfold Consolidate.overlapMatch
  rw [List.all_eq_true]
  constructor
  · intro h
    apply List.ext_getElem?
    intro i
    by_cases hik : i < k
    · have hi1 : ew.length - k + i < ew.length := by omega
      have hi2 : i < nw.length := by omega
      rw [List.getElem?_map, List.getElem?_map, List.getElem?_drop,
        List.getElem?_take_of_lt hik, List.getElem?_eq_getElem hi1,
        List.getElem?_eq_getElem hi2]
      simp only [Option.map_some']
      have hh := h i (by simpa using hik)
      rw [beq_iff_eq, List.getD_eq_getElem?_getD, List.getD_eq_getElem?_getD,
        List.getElem?_eq_getElem hi1, List.getElem?_eq_getElem hi2] at hh
      simp only [Option.getD_some] at hh
      rw [hh]
    · have e1 : ((ew.drop (ew.length - k)).map Consolidate.normalize_word)[i]? = none := by
        rw [List.getElem?_eq_none]
        simp only [List.length_map, List.length_drop]
        omega
      have e2 : ((nw.take k).map Consolidate.normalize_word)[i]? = none := by
        rw [List.getElem?_eq_none]
        simp only [List.length_map, List.length_take]
        omega
      rw [e1, e2]
  · intro h i hi
    rw [List.mem_range] at hi
    rw [beq_iff_eq]
    have hi1 : ew.length - k + i < ew.length := by omega
    have hi2 : i < nw.length := by omega
    have hcg := congrArg (fun l : List Str => l[i]?) h
    simp only at hcg
    rw [List.getElem?_map, List.getElem?_map, List.getElem?_drop,
      List.getElem?_take_of_lt hi, List.getElem?_eq_getElem hi1,
      List.getElem?_eq_getElem hi2] at hcg
    simp only [Option.map_some', Option.some.injEq] at hcg
    rw [List.getD_eq_getElem?_getD, List.getD_eq_getElem?_getD,
      List.getElem?_eq_getElem hi1, List.getElem?_eq_getElem hi2]
    simpa using hcg

/-- C2: for accumulator and fragment each containing at least one word, the
merge computes the largest `k` (`1 ≤ k ≤ min(#accumulator words, #fragment
words, 12)`) whose trailing/leading words agree under normalization (`K`
below; `K = 0` when no such `k` exists), and the result is the trimmed
accumulator followed — when any fragment words remain — by a single space
and the remaining fragment words joined by single spaces. -/
theorem claim_C2_merge_with_overlap (existing next : Str)
    (hE : split_whitespace existing ≠ []) (hN : split_whitespace next ≠ []) :
    ∀ ew nw K, ew = split_whitespace existing → nw = split_whitespace next →
      K = Consolidate.findOverlap ew nw
        ((ew.length.min nw.length).min Consolidate.CHUNK_MAX_OVERLAP_WORDS) →
      (1 ≤ K → (ew.drop (ew.length - K)).map Consolidate.normalize_word =
        (nw.take K).map Consolidate.normalize_word) ∧
      (∀ k, 1 ≤ k →
        k ≤ (ew.length.min nw.length).min Consolidate.CHUNK_MAX_OVERLAP_WORDS →
        (ew.drop (ew.length - k)).map Consolidate.normalize_word =
          (nw.take k).map Consolidate.normalize_word →
        k ≤ K) ∧
      Consolidate.merge_with_overlap existing next =
        (if nw.length ≤ K then trimStr existing
         else trimStr existing ++ ' ' :: joinWords (nw.drop K)) := by
  intro ew nw K hew hnw hK
  subst hew
  subst hnw
  subst hK
  have hKle := findOverlap_le (split_whitespace existing) (split_whitespace next)
    (((split_whitespace existing).length.min (split_whitespace next).length).min
      Consolidate.CHUNK_MAX_OVERLAP_WORDS)
  have hKe : Consolidate.findOverlap (split_whitespace existing) (split_whitespace next)
      (((split_whitespace existing).length.min (split_whitespace next).length).min
        Consolidate.CHUNK_MAX_OVERLAP_WORDS) ≤ (split_whitespace existing).length :=
    le_trans hKle (le_trans (Nat.min_le_left _ _) (Nat.min_le_left _ _))
  have hKn : Consolidate.findOverlap (split_whitespace existing) (split_whitespace next)
      (((split_whitespace existing).length.min (split_whitespace next).length).min
        Consolidate.CHUNK_MAX_OVERLAP_WORDS) ≤ (split_whitespace next).length :=
    le_trans hKle (le_trans (Nat.min_le_left _ _) (Nat.min_le_right _ _))
  refine ⟨?_, ?_, ?_⟩
  · intro hK1
    exact (overlapMatch_iff _ _ _ hKe hKn).mp
      (findOverlap_match (split_whitespace existing) (split_whitespace next) _ hK1)
  · intro k h1 h2 hmatch
    have hke : k ≤ (split_whitespace existing).length :=
      le_trans h2 (le_trans (Nat.min_le_left _ _) (Nat.min_le_left _ _))
    have hkn : k ≤ (split_whitespace next).length :=
      le_trans h2 (le_trans (Nat.min_le_left _ _) (Nat.min_le_right _ _))
    exact findOverlap_greatest _ _ _ k h1 h2 ((overlapMatch_iff _ _ k hke hkn).mpr hmatch)
  · have hokdrop : ∀ w ∈ (split_whitespace next).drop
        (Consolidate.findOverlap (split_whitespace existing) (split_whitespace next)
          (((split_whitespace existing).length.min (split_whitespace next).length).min
            Consolidate.CHUNK_MAX_OVERLAP_WORDS)), okWord w :=
      fun w hw => split_whitespace_ok next w (List.drop_subset _ _ hw)
    have hmne : trimStr existing ≠ [] := by
      intro h0
      exact hE ((split_whitespace_eq_nil_iff_trim existing).mpr h0)
    simp only [Consolidate.merge_with_overlap]
    rw [if_neg hE, if_neg hN]
    by_cases hlt : Consolidate.findOverlap (split_whitespace existing) (split_whitespace next)
        (((split_whitespace existing).length.min (split_whitespace next).length).min
          Consolidate.CHUNK_MAX_OVERLAP_WORDS) < (split_whitespace next).length
    · have hnot : ¬ ((split_whitespace next).length ≤
          Consolidate.findOverlap (split_whitespace existing) (split_whitespace next)
            (((split_whitespace existing).length.min (split_whitespace next).length).min
              Consolidate.CHUNK_MAX_OVERLAP_WORDS)) := by omega
      have hdropne : (split_whitespace next).drop
          (Consolidate.findOverlap (split_whitespace existing) (split_whitespace next)
            (((split_whitespace existing).length.min (split_whitespace next).length).min
              Consolidate.CHUNK_MAX_OVERLAP_WORDS)) ≠ [] := by
        rw [ne_eq, List.drop_eq_nil_iff]
        omega
      have hrestne := joinWords_ne_nil _ hdropne hokdrop
      rw [if_pos hlt, if_neg hnot, if_neg hrestne, if_neg hmne,
        trimStr_joinWords _ hokdrop]
      simp
    · have hyes : (split_whitespace next).length ≤
          Consolidate.findOverlap (split_whitespace existing) (split_whitespace next)
            (((split_whitespace existing).length.min (split_whitespace next).length).min
              Consolidate.CHUNK_MAX_OVERLAP_WORDS) := by omega
      rw [if_neg hlt, if_pos hyes]

/-- Witness for C2: `merge("the cat sat", "cat sat on mat")` =
`"the cat sat on mat"` (overlap `K = 2`, the words `cat sat`). -/
theorem claim_C2_merge_with_overlap_witness :
    Consolidate.merge_with_overlap ("the cat sat".toList) ("cat sat on mat".toList) =
      ("the cat sat on mat".toList) := by
  have h := (claim_C2_merge_with_overlap ("the cat sat".toList) ("cat sat on mat".toList)
    (by decide) (by decide) (split_whitespace ("the cat sat".toList))
    (split_whitespace ("cat sat on mat".toList))
    (Consolidate.findOverlap (split_whitespace ("the cat sat".toList))
      (split_whitespace ("cat sat on mat".toList))
      (((split_whitespace ("the cat sat".toList)).length.min
        (split_whitespace ("cat sat on mat".toList)).length).min
          Consolidate.CHUNK_MAX_OVERLAP_WORDS))
    rfl rfl rfl).2.2
  exact h.trans (by decide)

/-- C3 is false as stated: the non-final fragment `a b` has only 2 words,
and `trim_trailing_words` drops nothing from it (the guard
`parts.len() > words` fails), so both its words reach the merge — whereas
the claim says a non-final fragment of `n` words contributes its first
`n - 3` words, i.e. nothing here. -/
theorem claim_C3_counterexample_short_fragment :
    Consolidate.consolidate_chunk_texts ["a b".toList, "x y z w".toList] =
      ("a b x y z w".toList) ∧
    Consolidate.trim_trailing_words ("a b".toList) 3 = ("a b".toList) ∧
    ("a b x y z w".toList : Str) ≠ ("x y z w".toList : Str) := by
  refine ⟨by decide, by decide, by decide⟩

/-- Modelled from the amended claim's words: the part a fragment
contributes to the merge — the last non-blank fragment is kept whole
(trimmed of surrounding whitespace), every other fragment contributes its
words minus the trailing 3 when it has more than 3 words, and all of its
words otherwise. -/
def specPart (isLast : Bool) (frag : Str) : Str :=
  if isLast then trimStr frag
  else
    joinWords (if 3 < (split_whitespace frag).length then
      (split_whitespace frag).take ((split_whitespace frag).length - 3)
    else split_whitespace frag)

/-- The contributions of the fragments numbered from `idx`, blank fragments
skipped, under the given last-non-blank index. -/
def specPartsFrom (lastIdx : Option Nat) (idx : Nat) (chunks : List Str) : List Str :=
  ((chunks.enumFrom idx).filter (fun p => !(trimStr p.2).isEmpty)).map
    (fun p => specPart (decide (some p.1 = lastIdx)) p.2)

theorem trim_trailing_trim (c : Str) :
    Consolidate.trim_trailing_words (trimStr c) 3 = specPart false c := by
  unfold Consolidate.trim_trailing_words specPart
  rw [split_whitespace_trimStr]
  rw [if_neg (by simp : ¬ (false = true))]
  show (if 3 < (split_whitespace c).length then
      joinWords (List.take ((split_whitespace c).length - 3) (split_whitespace c))
    else joinWords (split_whitespace c)) = _
  by_cases h3 : 3 < (split_whitespace c).length
  · rw [if_pos h3, if_pos h3]
  · rw [if_neg h3, if_neg h3]

theorem specPart_ne_nil (isLast : Bool) (c : Str) (hc : trimStr c ≠ []) :
    specPart isLast c ≠ [] := by
  have hsp : split_whitespace c ≠ [] := by
    intro h0
    exact hc ((split_whitespace_eq_nil_iff_trim c).mp h0)
  unfold specPart
  cases isLast with
  | true =>
    rw [if_pos rfl]
    intro h0
    exact hsp ((split_whitespace_eq_nil_iff_trim c).mpr h0)
  | false =>
    rw [if_neg (by simp)]
    by_cases h3 : 3 < (split_whitespace c).length
    · rw [if_pos h3]
      refine joinWords_ne_nil _ ?_ ?_
      · intro h0
        have := congrArg List.length h0
        simp only [List.length_take, List.length_nil] at this
        omega
      · intro w hw
        exact split_whitespace_ok c w (List.take_subset _ _ hw)
    · rw [if_neg h3]
      exact joinWords_ne_nil _ hsp (split_whitespace_ok c)

theorem consolidateAux_foldl (lastIdx : Option Nat) :
    ∀ (chunks : List Str) (idx : Nat) (combined : Str),
      Consolidate.consolidateAux lastIdx chunks idx combined =
        List.foldl Consolidate.merge_with_overlap combined
          (specPartsFrom lastIdx idx chunks) := by
  intro chunks
  induction chunks with
  | nil => intro idx combined; rfl
  | cons chunk rest ih =>
    intro idx combined
    simp only [Consolidate.consolidateAux, Consolidate.CHUNK_TRIM_WORDS]
    by_cases hb : trimStr chunk = []
    · rw [if_pos hb]
      have hfil : specPartsFrom lastIdx idx (chunk :: rest) =
          specPartsFrom lastIdx (idx + 1) rest := by
        unfold specPartsFrom
        rw [List.enumFrom_cons, List.filter_cons]
        rw [if_neg (by simp [hb])]
      rw [hfil]
      exact ih (idx + 1) combined
    · rw [if_neg hb]
      have hfil : specPartsFrom lastIdx idx (chunk :: rest) =
          specPart (decide (some idx = lastIdx)) chunk ::
            specPartsFrom lastIdx (idx + 1) rest := by
        unfold specPartsFrom
        rw [List.enumFrom_cons, List.filter_cons]
        rw [if_pos (by simp [hb])]
        rw [List.map_cons]
      rw [hfil, List.foldl_cons]
      by_cases hL : some idx = lastIdx
      · rw [if_pos hL]
        have hpart : specPart (decide (some idx = lastIdx)) chunk = trimStr chunk := by
          rw [decide_eq_true hL]
          unfold specPart
          rw [if_pos rfl]
        rw [hpart]
        rw [if_neg hb]
        exact ih (idx + 1) (Consolidate.merge_with_overlap combined (trimStr chunk))
      · rw [if_neg hL]
        have hpart : specPart (decide (some idx = lastIdx)) chunk =
            Consolidate.trim_trailing_words (trimStr chunk) 3 := by
          rw [decide_eq_false hL]
          exact (trim_trailing_trim chunk).symm
        have hne : Consolidate.trim_trailing_words (trimStr chunk) 3 ≠ [] := by
          rw [trim_trailing_trim chunk]
          exact specPart_ne_nil false chunk hb
        rw [hpart, if_neg hne]
        exact ih (idx + 1) _

/-- C3 (amended): during consolidation the last non-blank fragment is kept
whole, and every other non-blank fragment contributes exactly its first
`n - 3` words when it has `n > 3` words but is kept whole when `n ≤ 3`;
equivalently, consolidation merges, in order, the per-fragment
contributions `specPartsFrom`, then applies the two collapse passes. -/
theorem claim_C3_amended_trailing_trim :
    (∀ chunks : List Str,
      Consolidate.consolidate_chunk_texts chunks =
        Consolidate.collapse_duplicate_words (Consolidate.collapse_repeated_phrases
          (List.foldl Consolidate.merge_with_overlap []
            (specPartsFrom (Consolidate.rpositionNonBlank chunks) 0 chunks)))) ∧
    (∀ s : Str, 3 < (split_whitespace s).length →
      split_whitespace (Consolidate.trim_trailing_words s 3) =
        (split_whitespace s).take ((split_whitespace s).length - 3)) ∧
    (∀ s : Str, (split_whitespace s).length ≤ 3 →
      Consolidate.trim_trailing_words s 3 = joinWords (split_whitespace s)) := by
  refine ⟨?_, ?_, ?_⟩
  · intro chunks
    show Consolidate.collapse_duplicate_words (Consolidate.collapse_repeated_phrases
      (Consolidate.consolidateAux (Consolidate.rpositionNonBlank chunks) chunks 0 [])) = _
    rw [consolidateAux_foldl]
  · intro s h3
    show split_whitespace (if 3 < (split_whitespace s).length then
        joinWords ((split_whitespace s).take ((split_whitespace s).length - 3))
      else joinWords (split_whitespace s)) = _
    rw [if_pos h3]
    exact split_whitespace_joinWords _
      (fun w hw => split_whitespace_ok s w (List.take_subset _ _ hw))
  · intro s h3
    show (if 3 < (split_whitespace s).length then
        joinWords ((split_whitespace s).take ((split_whitespace s).length - 3))
      else joinWords (split_whitespace s)) = _
    rw [if_neg (by omega)]

/-- Witness for the amended C3: a 5-word fragment loses its trailing 3
words; a 2-word fragment is passed through whole. -/
theorem claim_C3_amended_trailing_trim_witness :
    split_whitespace (Consolidate.trim_trailing_words ("a b c d e".toList) 3) =
      (split_whitespace ("a b c d e".toList)).take
        ((split_whitespace ("a b c d e".toList)).length - 3) ∧
    Consolidate.trim_trailing_words ("a b".toList) 3 =
      joinWords (split_whitespace ("a b".toList)) :=
  ⟨claim_C3_amended_trailing_trim.2.1 ("a b c d e".toList) (by decide),
   claim_C3_amended_trailing_trim.2.2 ("a b".toList) (by decide)⟩
